import Mathlib

/-!
# Verification of the Nimble/Alpha storage-engine core

Shallow embedding of parts of the `facebookexternal/nimble` repository:

* the run-length (RLE) encoding decoder (`src/alpha/encodings/RleEncoding.h`,
  `src/dwio/nimble/encodings/RleEncoding.cpp`), including the boolean
  specialisation that stores only the first run value;
* the encoding-layout tree serializer/parser
  (`src/dwio/alpha/velox/EncodingLayoutTree.cpp`);
* the default input-buffer growth policy
  (`src/dwio/nimble/velox/BufferGrowthPolicy.cpp`);
* the flat-map layout planner (`src/dwio/alpha/velox/FlatMapLayoutPlanner.cpp`);
* the raw-stripe-size flush policy (`src/dwio/nimble/velox/FlushPolicy.cpp`).

Machine integers are modelled as `Nat` with explicit masking where the source
truncates; bytes are `Nat` values; fallible operations return `Option` or an
error sum.
-/

namespace Nimble

/-! ## RLE decoder (`internal::RLEEncodingBase` in `src/alpha/encodings/RleEncoding.h`)

The C++ base class keeps four pieces of decoder state: `copiesRemaining_`
(rows left in the current run), `currentValue_` (the value of the current
run), the stream of not-yet-fetched run lengths (`materializedRunLengths_`)
and the stream of not-yet-fetched run values (delivered by the CRTP hook
`derived().nextValue()`; for scalar `T` it pops from the nested run-values
encoding, for `bool` it alternates starting from the single stored byte).
We model both value sources uniformly as the list of values the hook would
deliver, one per run. -/

structure RLEState (α : Type) where
  copiesRemaining : Nat
  currentValue : α
  runsLeft : List Nat
  valuesLeft : List α
  deriving Repr, DecidableEq

variable {α : Type}

/-- `RLEEncodingBase::skip` (RleEncoding.h lines 60-73), written as recursion
on the list of unfetched run lengths.  Each loop iteration either returns
(`rowsLeft == 0` via the `while` guard, or `rowsLeft < copiesRemaining_`) or
fetches the next run length and run value.  When the source would fetch past
the last run (out-of-bounds use, undefined in C++) the model stops with an
exhausted state. -/
def rleSkipGo [Inhabited α] : List Nat → Nat → Nat → α → List α → RLEState α
  | runs, rowsLeft, copies, cur, vals =>
    if rowsLeft = 0 then ⟨copies, cur, runs, vals⟩
    else if rowsLeft < copies then ⟨copies - rowsLeft, cur, runs, vals⟩
    else
      match runs with
      | [] => ⟨0, cur, [], vals⟩
      | r :: rest =>
        rleSkipGo rest (rowsLeft - copies) r (vals.headD default) vals.tail

/-- `RLEEncodingBase::materialize` (RleEncoding.h lines 75-91): same loop
shape as `skip`, additionally emitting `copiesRemaining_` (respectively
`rowsLeft`) copies of `currentValue_` per iteration. -/
def rleMatGo [Inhabited α] : List Nat → Nat → Nat → α → List α → List α × RLEState α
  | runs, rowsLeft, copies, cur, vals =>
    if rowsLeft = 0 then ([], ⟨copies, cur, runs, vals⟩)
    else if rowsLeft < copies then
      (List.replicate rowsLeft cur, ⟨copies - rowsLeft, cur, runs, vals⟩)
    else
      match runs with
      | [] => (List.replicate copies cur, ⟨0, cur, [], vals⟩)
      | r :: rest =>
        let p := rleMatGo rest (rowsLeft - copies) r (vals.headD default) vals.tail
        (List.replicate copies cur ++ p.1, p.2)

def RLEState.skip [Inhabited α] (s : RLEState α) (rowCount : Nat) : RLEState α :=
  rleSkipGo s.runsLeft rowCount s.copiesRemaining s.currentValue s.valuesLeft

def RLEState.materialize [Inhabited α] (s : RLEState α) (rowCount : Nat) :
    List α × RLEState α :=
  rleMatGo s.runsLeft rowCount s.copiesRemaining s.currentValue s.valuesLeft

/-- `RLEEncodingBase::reset` (RleEncoding.h lines 53-58): rewind both streams,
then pre-fetch the first run length and the first run value. -/
def rleReset [Inhabited α] (runLengths : List Nat) (runValues : List α) :
    RLEState α :=
  ⟨runLengths.headD 0, runValues.headD default, runLengths.tail, runValues.tail⟩

/-- The value sequence a decoder state still represents: the rest of the
current run followed by the runs not yet fetched, each run paired with the
next value its fetch would deliver. -/
def rleExpand [Inhabited α] : List Nat → List α → List α
  | [], _ => []
  | r :: rest, vals => List.replicate r (vals.headD default) ++ rleExpand rest vals.tail

def RLEState.decoded [Inhabited α] (s : RLEState α) : List α :=
  List.replicate s.copiesRemaining s.currentValue ++ rleExpand s.runsLeft s.valuesLeft

/-! ### Boolean specialisation (`RLEEncoding<bool>`)

`RLEEncoding<bool>::nextValue` (`src/dwio/nimble/encodings/RleEncoding.cpp`
lines 20-23) returns the current `value_` and flips it; `resetValues` sets
`value_` to the single stored `initialValue_`.  So the hook delivers the
alternating sequence starting at the stored first value, one value per run. -/

def alternatingValues (b : Bool) : Nat → List Bool
  | 0 => []
  | n + 1 => b :: alternatingValues (!b) n

/-- Fresh boolean RLE decoder over payload (run lengths, stored first value),
as left by the `RLEEncoding<bool>` constructor (which ends in `reset()`). -/
def boolRLEInit (runLengths : List Nat) (firstValue : Bool) : RLEState Bool :=
  rleReset runLengths (alternatingValues firstValue runLengths.length)

/-! ### Encoding side

`rle::computeRuns` lives in `dwio/alpha/common/Rle.h`, which is not part of
the sources at hand.  Modelled from the spec: maximal runs of equal adjacent
values, producing the parallel lists of run lengths and run values. -/

def computeRunsGo [DecidableEq α] : α → Nat → List α → List (Nat × α)
  | cur, cnt, [] => [(cnt, cur)]
  | cur, cnt, x :: xs =>
    if x = cur then computeRunsGo cur (cnt + 1) xs
    else (cnt, cur) :: computeRunsGo x 1 xs

/-- Modelled from the spec: `rle::computeRuns` (run lengths with run values). -/
def computeRuns [DecidableEq α] : List α → List (Nat × α)
  | [] => []
  | x :: xs => computeRunsGo x 1 xs

/-- `RLEEncodingBase::encode` + `RLEEncoding<bool>::getSerializedRunValues`
(RleEncoding.h lines 93-120 and 188-195): the payload keeps the run lengths
and, for booleans, the single byte `runValues[0]`. -/
def boolRLEEncode (values : List Bool) : List Nat × Bool :=
  ((computeRuns values).map Prod.fst, ((computeRuns values).map Prod.snd).headD default)

/-! ### Decoder correctness lemmas -/

theorem rleExpand_length [Inhabited α] (runs : List Nat) (vals : List α) :
    (rleExpand runs vals).length = runs.sum := by
  induction runs generalizing vals with
  | nil => simp [rleExpand]
  | cons r rest ih => simp [rleExpand, ih]

theorem rleReset_decoded [Inhabited α] (rl : List Nat) (vals : List α) :
    (rleReset rl vals).decoded = rleExpand rl vals := by
  cases rl with
  | nil => simp [rleReset, RLEState.decoded, rleExpand]
  | cons r rest => simp [rleReset, RLEState.decoded, rleExpand]

/-- `skip` leaves the decoder in exactly the state `materialize` would. -/
theorem rleSkipGo_eq_matGo [Inhabited α] (runs : List Nat) (n copies : Nat)
    (cur : α) (vals : List α) :
    rleSkipGo runs n copies cur vals = (rleMatGo runs n copies cur vals).2 := by
  induction runs generalizing n copies cur vals with
  | nil =>
    rw [rleSkipGo, rleMatGo]
    split
    · rfl
    · split <;> rfl
  | cons r rest ih =>
    rw [rleSkipGo, rleMatGo]
    split
    · rfl
    · split
      · rfl
      · exact ih _ _ _ _

/-- In-bounds `materialize` emits a prefix of the represented value sequence
and leaves a state representing the matching suffix. -/
theorem rleMatGo_spec [Inhabited α] (runs : List Nat) (n copies : Nat)
    (cur : α) (vals : List α)
    (h : n ≤ copies + (rleExpand runs vals).length) :
    (rleMatGo runs n copies cur vals).1 =
      (List.replicate copies cur ++ rleExpand runs vals).take n ∧
    (rleMatGo runs n copies cur vals).2.decoded =
      (List.replicate copies cur ++ rleExpand runs vals).drop n := by
  induction runs generalizing n copies cur vals with
  | nil =>
    simp only [rleExpand, List.length_nil, Nat.add_zero] at h
    rw [rleMatGo]
    split
    · rename_i h0
      subst h0
      simp [RLEState.decoded, rleExpand]
    · split
      · rename_i h0 hlt
        constructor
        · rw [List.take_append_eq_append_take, List.take_replicate,
            Nat.min_eq_left (Nat.le_of_lt hlt)]
          simp [rleExpand]
        · simp only [RLEState.decoded, rleExpand]
          rw [List.drop_append_eq_append_drop, List.drop_replicate]
          simp
      · rename_i h0 hge
        have hn : n = copies := Nat.le_antisymm h (Nat.not_lt.mp hge)
        subst hn
        constructor
        · rw [List.take_append_eq_append_take, List.take_replicate]
          simp [rleExpand]
        · simp only [RLEState.decoded, rleExpand]
          rw [List.drop_append_eq_append_drop, List.drop_replicate]
          simp
  | cons r rest ih =>
    rw [rleMatGo]
    split
    · rename_i h0
      subst h0
      simp [RLEState.decoded]
    · split
      · rename_i h0 hlt
        constructor
        · rw [List.take_append_eq_append_take, List.take_replicate,
            Nat.min_eq_left (Nat.le_of_lt hlt)]
          simp [Nat.sub_eq_zero_of_le (Nat.le_of_lt hlt)]
        · simp only [RLEState.decoded]
          rw [List.drop_append_eq_append_drop, List.drop_replicate]
          simp [Nat.sub_eq_zero_of_le (Nat.le_of_lt hlt)]
      · rename_i h0 hge
        have hcle : copies ≤ n := Nat.not_lt.mp hge
        have hrec : n - copies ≤ r + (rleExpand rest vals.tail).length := by
          have hlen : (rleExpand (r :: rest) vals).length =
              r + (rleExpand rest vals.tail).length := by
            simp [rleExpand]
          omega
        have hrec' : n - copies ≤ r +
            (rleExpand rest (vals.tail)).length := hrec
        obtain ⟨ih1, ih2⟩ := ih (n - copies) r (vals.headD default) vals.tail
          (by simpa [rleExpand_length] using hrec')
        have hexp : rleExpand (r :: rest) vals =
            List.replicate r (vals.headD default) ++ rleExpand rest vals.tail := rfl
        constructor
        · show List.replicate copies cur ++
              (rleMatGo rest (n - copies) r (vals.headD default) vals.tail).1 = _
          rw [ih1]
          conv_rhs =>
            rw [hexp, List.take_append_eq_append_take, List.take_replicate,
              Nat.min_eq_right hcle, List.length_replicate]
        · show (rleMatGo rest (n - copies) r (vals.headD default) vals.tail).2.decoded = _
          rw [ih2]
          conv_rhs =>
            rw [hexp, List.drop_append_eq_append_drop, List.drop_replicate,
              Nat.sub_eq_zero_of_le hcle, List.length_replicate]
          simp

theorem RLEState.materialize_spec [Inhabited α] (s : RLEState α) (n : Nat)
    (h : n ≤ s.decoded.length) :
    (s.materialize n).1 = s.decoded.take n ∧
    (s.materialize n).2.decoded = s.decoded.drop n := by
  obtain ⟨copies, cur, runs, vals⟩ := s
  exact rleMatGo_spec runs n copies cur vals
    (by simpa [RLEState.decoded] using h)

theorem RLEState.skip_decoded [Inhabited α] (s : RLEState α) (n : Nat)
    (h : n ≤ s.decoded.length) :
    (s.skip n).decoded = s.decoded.drop n := by
  obtain ⟨copies, cur, runs, vals⟩ := s
  show (rleSkipGo runs n copies cur vals).decoded = _
  rw [rleSkipGo_eq_matGo]
  exact (rleMatGo_spec runs n copies cur vals
    (by simpa [RLEState.decoded] using h)).2

/-! ## C2: skip then materialize agrees with materialize then drop -/

/-- **C2.** For every RLE payload (run lengths and run values) of total
length `n = runLengths.sum`, and every `a + b ≤ n`: skipping `a` and then
materializing `b` from a fresh decoder yields exactly `materialize (a+b)`
from a fresh decoder with the first `a` values dropped. -/
theorem rle_skip_then_materialize [Inhabited α] (rl : List Nat) (vals : List α)
    (a b : Nat) (h : a + b ≤ rl.sum) :
    (((rleReset rl vals).skip a).materialize b).1 =
      (((rleReset rl vals).materialize (a + b)).1).drop a := by
  have hlen : (rleReset rl vals).decoded.length = rl.sum := by
    rw [rleReset_decoded, rleExpand_length]
  have hskip := RLEState.skip_decoded (rleReset rl vals) a (by omega)
  have hslen : ((rleReset rl vals).skip a).decoded.length = rl.sum - a := by
    rw [hskip, List.length_drop, hlen]
  have hmat1 := (RLEState.materialize_spec ((rleReset rl vals).skip a) b
    (by omega)).1
  have hmat2 := (RLEState.materialize_spec (rleReset rl vals) (a + b)
    (by omega)).1
  rw [hmat1, hskip, hmat2, List.drop_take]
  congr 1
  omega

/-- Witness for C2 at a concrete input. -/
theorem rle_skip_then_materialize_witness :
    4 + 2 ≤ [3, 2, 1].sum ∧
    (((rleReset [3, 2, 1] [true, false, true]).skip 4).materialize 2).1 =
      (((rleReset [3, 2, 1] [true, false, true]).materialize (4 + 2)).1).drop 4 :=
  ⟨by decide, rle_skip_then_materialize [3, 2, 1] [true, false, true] 4 2 (by decide)⟩

/-! ## C1: concrete boolean RLE scenario -/

/-- **C1.** For boolean RLE only the first run's value is stored and decoding
alternates between runs: encoding `[T,T,T,F,F,T]` yields run lengths
`[3,2,1]` with stored first value `T`; decoding materializes the original
sequence; `skip(4)` followed by `materialize(2)` yields `[F,T]`. -/
theorem boolRLE_scenario :
    boolRLEEncode [true, true, true, false, false, true] = ([3, 2, 1], true) ∧
    ((boolRLEInit [3, 2, 1] true).materialize 6).1 =
      [true, true, true, false, false, true] ∧
    (((boolRLEInit [3, 2, 1] true).skip 4).materialize 2).1 = [false, true] := by
  decide

/-! ## Flush policy (`src/dwio/nimble/velox/FlushPolicy.cpp`) -/

inductive FlushDecision where
  | None
  | Chunk
  | Stripe
  deriving Repr, DecidableEq

/-- Modelled from the spec: `StripeProgress` (its header is not among the
sources) carries the raw bytes accumulated and the row count; the default
policy only consults `rawStripeSize`. -/
structure StripeProgress where
  rawStripeSize : Nat
  rowCount : Nat
  deriving Repr, DecidableEq

/-- `RawStripeSizeFlushPolicy` holds the configured threshold
`rawStripeSize_`. -/
structure RawStripeSizeFlushPolicy where
  rawStripeSize : Nat
  deriving Repr, DecidableEq

/-- `RawStripeSizeFlushPolicy::shouldFlush` (FlushPolicy.cpp lines 20-24). -/
def RawStripeSizeFlushPolicy.shouldFlush (policy : RawStripeSizeFlushPolicy)
    (stripeProgress : StripeProgress) : FlushDecision :=
  if stripeProgress.rawStripeSize ≥ policy.rawStripeSize then FlushDecision.Stripe
  else FlushDecision.None

/-! ## C9: flush policy decision -/

/-- **C9.** `RawStripeSizeFlushPolicy::shouldFlush` returns `Stripe` exactly
when the accumulated raw stripe size reaches the configured threshold,
returns `None` otherwise, and never returns `Chunk`. -/
theorem rawStripeSizeFlushPolicy_shouldFlush_spec
    (policy : RawStripeSizeFlushPolicy) (p : StripeProgress) :
    (policy.shouldFlush p = FlushDecision.Stripe ↔
      policy.rawStripeSize ≤ p.rawStripeSize) ∧
    (policy.shouldFlush p = FlushDecision.None ↔
      p.rawStripeSize < policy.rawStripeSize) ∧
    policy.shouldFlush p ≠ FlushDecision.Chunk := by
  unfold RawStripeSizeFlushPolicy.shouldFlush
  by_cases h : policy.rawStripeSize ≤ p.rawStripeSize
  · simp [h, ge_iff_le]
  · simp [h, ge_iff_le, Nat.lt_of_not_le h]

/-! ## Default input-buffer growth policy
(`src/dwio/nimble/velox/BufferGrowthPolicy.cpp`)

The policy's configuration lives in `BufferGrowthPolicy.h`, which is not
among the sources.  Modelled from the spec: the default policy is
parameterised by a sorted set of `(threshold, growth_factor)` pairs
`{16 ↦ 4.0, 1024 ↦ 2.0, 1024*1024 ↦ 1.5}` with the minimum capacity being
the smallest threshold (16).  The C++ `float`/`double` arithmetic is
modelled with exact rationals. -/

def defaultRangeConfigs : List (Nat × ℚ) :=
  [(16, 4), (1024, 2), (1024 * 1024, 3 / 2)]

def defaultMinCapacity : Nat := 16

/-- `rangeConfigs_.upper_bound(newSize)` followed by `--iter`: the last
config whose threshold is at most `newSize`, if any. -/
def selectGrowthFactor (configs : List (Nat × ℚ)) (newSize : Nat) : Option ℚ :=
  ((configs.filter (fun p => p.1 ≤ newSize)).getLast?).map Prod.snd

/-- The `while (extendedCapacity < newSize) extendedCapacity *= factor` loop
(BufferGrowthPolicy.cpp lines 31-34), with explicit fuel.  The caller passes
fuel `newSize`, which is shown to be enough for the loop to reach `newSize`
whenever the factor is at least 3/2 and the start is at least 16. -/
def growCapacity (factor : ℚ) (newSize : Nat) : Nat → ℚ → ℚ
  | 0, x => x
  | fuel + 1, x =>
    if x < (newSize : ℚ) then growCapacity factor newSize fuel (x * factor) else x

/-- `DefaultInputBufferGrowthPolicy::getExtendedCapacity`
(BufferGrowthPolicy.cpp lines 9-36) with the default range configs. -/
def getExtendedCapacity (newSize capacity : Nat) : Nat :=
  if newSize ≤ capacity then capacity
  else
    match selectGrowthFactor defaultRangeConfigs newSize with
    | none => defaultMinCapacity
    | some factor =>
        ⌊growCapacity factor newSize newSize ((max capacity defaultMinCapacity : Nat) : ℚ)⌋₊

/-- **C5.** When `newSize ≤ capacity`, the default growth policy returns the
current capacity unchanged. -/
theorem getExtendedCapacity_noop (newSize capacity : Nat)
    (h : newSize ≤ capacity) : getExtendedCapacity newSize capacity = capacity := by
  unfold getExtendedCapacity
  simp [h]

/-- Witness for C5. -/
theorem getExtendedCapacity_noop_witness :
    5 ≤ 100 ∧ getExtendedCapacity 5 100 = 100 :=
  ⟨by decide, getExtendedCapacity_noop 5 100 (by decide)⟩

/-! ## Boolean RLE payload framing
(`src/dwio/nimble/encodings/RleEncoding.cpp` constructor)

Byte-level view of the payload: the standard encoding prefix
(`Encoding::kPrefixSize` = 1 byte kind + 1 byte data type + 4 bytes LE row
count), a 4-byte LE run-lengths size, the run-lengths bytes, and — for the
boolean specialisation — a single byte holding the first run value. -/

def kPrefixSize : Nat := 6

def readUInt32LE (data : List Nat) (offset : Nat) : Nat :=
  data.getD offset 0 + 256 * data.getD (offset + 1) 0 +
    65536 * data.getD (offset + 2) 0 + 16777216 * data.getD (offset + 3) 0

def writeUInt32LE (n : Nat) : List Nat :=
  [n % 256, n / 256 % 256, n / 65536 % 256, n / 16777216 % 256]

/-- `RLEEncodingBase::getValuesStart` (RleEncoding.h lines 122-126): the run
values start after the prefix, the 4-byte runs size, and the runs bytes. -/
def rleValuesStart (data : List Nat) : Nat :=
  kPrefixSize + 4 + readUInt32LE data kPrefixSize

/-- The `NIMBLE_CHECK` in `RLEEncoding<bool>::RLEEncoding`
(src/dwio/nimble/encodings/RleEncoding.cpp lines 7-18): construction
succeeds only when `getValuesStart() + 1 == data.end()`, i.e. when the
payload ends exactly one byte after the run-lengths section. -/
def boolRLEConstructOk (data : List Nat) : Bool :=
  rleValuesStart data + 1 == data.length

theorem readUInt32LE_after6 (pre rest : List Nat) (n : Nat)
    (hpre : pre.length = kPrefixSize) (hn : n < 2 ^ 32) :
    readUInt32LE (pre ++ (writeUInt32LE n ++ rest)) kPrefixSize = n := by
  unfold readUInt32LE
  have h0 : ∀ i : Nat, (pre ++ (writeUInt32LE n ++ rest)).getD (kPrefixSize + i) 0 =
      (writeUInt32LE n ++ rest).getD i 0 := by
    intro i
    rw [show kPrefixSize + i = pre.length + i by omega]
    rw [List.getD_append_right pre _ 0 _ (by omega)]
    congr 1
    omega
  have h0' := h0 0
  simp only [Nat.add_zero] at h0'
  rw [h0', h0 1, h0 2, h0 3]
  simp only [writeUInt32LE, List.cons_append, List.getD_cons_zero,
    List.getD_cons_succ]
  omega

/-! ## C10: the boolean RLE constructor rejects misframed payloads -/

/-- **C10.** A boolean RLE payload is accepted at construction exactly when
it ends one byte (the stored first value) after the run-lengths section:
any trailing bytes after the value byte are rejected, and so is a payload
missing the value byte. -/
theorem boolRLE_construct_framing (pre runsBytes trailing : List Nat) (b : Nat)
    (hpre : pre.length = kPrefixSize) (hlen : runsBytes.length < 2 ^ 32) :
    (boolRLEConstructOk
        (pre ++ (writeUInt32LE runsBytes.length ++ (runsBytes ++ ([b] ++ trailing)))) = true
      ↔ trailing = []) ∧
    boolRLEConstructOk (pre ++ (writeUInt32LE runsBytes.length ++ runsBytes)) = false := by
  have hk : kPrefixSize = 6 := rfl
  have hpre6 : pre.length = 6 := hpre.trans hk
  constructor
  · unfold boolRLEConstructOk rleValuesStart
    rw [readUInt32LE_after6 pre _ runsBytes.length hpre hlen]
    simp only [beq_iff_eq, List.length_append, writeUInt32LE, List.length_cons,
      List.length_nil, hpre6, hk]
    constructor
    · intro h
      have h0 : trailing.length = 0 := by omega
      exact List.length_eq_zero.mp h0
    · intro h
      subst h
      simp only [List.length_nil]
      omega
  · unfold boolRLEConstructOk rleValuesStart
    rw [readUInt32LE_after6 pre runsBytes runsBytes.length hpre hlen]
    simp only [beq_eq_false_iff_ne, ne_eq, List.length_append, writeUInt32LE,
      List.length_cons, List.length_nil, hpre6, hk]
    omega

/-- Witness for C10. -/
theorem boolRLE_construct_framing_witness :
    ([0, 1, 0, 0, 0, 0] : List Nat).length = kPrefixSize ∧
    ([5, 5] : List Nat).length < 2 ^ 32 ∧
    ((boolRLEConstructOk
        ([0, 1, 0, 0, 0, 0] ++ (writeUInt32LE ([5, 5] : List Nat).length ++
          ([5, 5] ++ ([1] ++ ([7] : List Nat))))) = true ↔ ([7] : List Nat) = []) ∧
      boolRLEConstructOk
        ([0, 1, 0, 0, 0, 0] ++ (writeUInt32LE ([5, 5] : List Nat).length ++ [5, 5])) = false) :=
  ⟨by decide, by decide,
    boolRLE_construct_framing [0, 1, 0, 0, 0, 0] [5, 5] [7] 1 (by decide) (by decide)⟩

/-! ## Encoding layout tree (`src/dwio/alpha/velox/EncodingLayoutTree.cpp`)

Byte-consumer embedding: every parser takes the remaining byte list and
returns the parsed value together with the bytes left over, so `pos`
arithmetic in the C++ becomes list consumption.  The C++ `ALPHA_CHECK`
buffer-size guards correspond exactly to the reads below returning `none`
on a short buffer. -/

def writeUInt16LE (n : Nat) : List Nat :=
  [n % 256, n / 256 % 256]

def readByte : List Nat → Option (Nat × List Nat)
  | [] => none
  | b :: rest => some (b, rest)

def readUInt16 : List Nat → Option (Nat × List Nat)
  | b0 :: b1 :: rest => some (b0 + 256 * b1, rest)
  | _ => none

def readUInt32 : List Nat → Option (Nat × List Nat)
  | b0 :: b1 :: b2 :: b3 :: rest =>
      some (b0 + 256 * b1 + 65536 * b2 + 16777216 * b3, rest)
  | _ => none

def readChunk (n : Nat) (bytes : List Nat) : Option (List Nat × List Nat) :=
  if n ≤ bytes.length then some (bytes.take n, bytes.drop n) else none

/-- Modelled from the spec: an `EncodingLayout` (its implementation file
`EncodingLayout.cpp` is not among the sources) is a recursive record of
encoding kind, compression kind and child layouts. -/
inductive ELayout where
  | node (encodingKind : Nat) (compressionKind : Nat) (children : List ELayout)
  deriving Repr

mutual
/-- Modelled from the spec: `EncodingLayout::serialize`, a self-delimiting
recursive byte format (kind, compression kind, child count, children). -/
def serializeLayout : ELayout → List Nat
  | .node k c cs => k % 256 :: c % 256 :: cs.length % 256 :: serializeLayoutList cs
def serializeLayoutList : List ELayout → List Nat
  | [] => []
  | l :: ls => serializeLayout l ++ serializeLayoutList ls
end

/-- Looping combinator for `for (auto i = 0; i < count; ++i)` parse loops. -/
def parseList {β : Type} (p : List Nat → Option (β × List Nat)) :
    Nat → List Nat → Option (List β × List Nat)
  | 0, bytes => some ([], bytes)
  | count + 1, bytes => do
      let (x, r1) ← p bytes
      let (xs, r2) ← parseList p count r1
      some (x :: xs, r2)

/-- Modelled from the spec: `EncodingLayout::create`, which consumes a
serialised layout and reports how many bytes it used (here: the unconsumed
suffix).  The fuel argument bounds recursion depth; callers pass more fuel
than the byte length, which is shown sufficient. -/
def parseLayout : Nat → List Nat → Option (ELayout × List Nat)
  | 0, _ => none
  | fuel + 1, bytes => do
      let (k, r1) ← readByte bytes
      let (c, r2) ← readByte r1
      let (count, r3) ← readByte r2
      let (cs, r4) ← parseList (parseLayout fuel) count r3
      some (ELayout.node k c cs, r4)

/-- The schema-aligned encoding layout tree (`EncodingLayoutTree`): schema
kind, per-stream-identifier encoding layouts (the C++ `unordered_map`
modelled as the association list in iteration order), node name, children. -/
inductive ELTree where
  | node (schemaKind : Nat) (layouts : List (Nat × ELayout)) (name : List Nat)
      (children : List ELTree)
  deriving Repr

/-- One stream-layout entry as written by `EncodingLayoutTree::serialize`
(EncodingLayoutTree.cpp lines 112-120): identifier (1 byte), layout length
(2 bytes LE), layout bytes. -/
def serializeEntry (e : Nat × ELayout) : List Nat :=
  e.1 % 256 :: (writeUInt16LE (serializeLayout e.2).length ++ serializeLayout e.2)

mutual
/-- `EncodingLayoutTree::serialize` (EncodingLayoutTree.cpp lines 100-129):
schema kind (1 byte), name length (2 bytes LE), name bytes, layout count
(1 byte), layout entries, children count (4 bytes LE), children. -/
def serializeTree : ELTree → List Nat
  | .node kind layouts name children =>
      kind % 256 :: (writeUInt16LE name.length ++ name ++
        ((layouts.length % 256) :: (layouts.map serializeEntry).flatten) ++
        writeUInt32LE children.length ++ serializeTreeList children)
def serializeTreeList : List ELTree → List Nat
  | [] => []
  | t :: ts => serializeTree t ++ serializeTreeList ts
end

/-- The body of the stream-layout loop in `createInternal`
(EncodingLayoutTree.cpp lines 46-64): read the identifier and the declared
layout length, hand `EncodingLayout::create` a window of exactly that many
bytes, and check that it consumed the whole declared length. -/
def parseLayoutEntry (bytes : List Nat) : Option ((Nat × ELayout) × List Nat) := do
  let (id, r1) ← readByte bytes
  let (len, r2) ← readUInt16 r1
  let (window, r3) ← readChunk len r2
  let (l, wrest) ← parseLayout (len + 1) window
  if wrest.isEmpty then some ((id, l), r3) else none

/-- `createInternal` (EncodingLayoutTree.cpp lines 13-82).  The fuel bounds
the recursion depth; `ELTree.create` passes one more than the byte length,
which suffices because every node consumes at least 8 bytes before
recursing into its children. -/
def createInternal : Nat → List Nat → Option (ELTree × List Nat)
  | 0, _ => none
  | fuel + 1, bytes => do
      let (schemaKind, r1) ← readByte bytes
      let (nameLength, r2) ← readUInt16 r1
      let (name, r3) ← readChunk nameLength r2
      let (layoutCount, r4) ← readByte r3
      let (layouts, r5) ← parseList parseLayoutEntry layoutCount r4
      let (childrenCount, r6) ← readUInt32 r5
      let (children, r7) ← parseList (createInternal fuel) childrenCount r6
      some (ELTree.node schemaKind layouts name children, r7)

/-- `EncodingLayoutTree::create` (EncodingLayoutTree.cpp lines 131-133). -/
def ELTree.create (bytes : List Nat) : Option ELTree :=
  (createInternal (bytes.length + 1) bytes).map Prod.fst

/-! ### Well-formedness

The constraints under which the C++ serializer is lossless: every byte-wide
field fits in a byte (the constructor itself enforces fewer than 255
per-stream layouts, EncodingLayoutTree.cpp lines 95-98), names fit the
2-byte length field, serialised layouts fit their 2-byte length field, and
the child count fits 4 bytes. -/

mutual
def wfLayout : ELayout → Prop
  | .node k c cs => k < 256 ∧ c < 256 ∧ cs.length < 256 ∧ wfLayoutList cs
def wfLayoutList : List ELayout → Prop
  | [] => True
  | l :: ls => wfLayout l ∧ wfLayoutList ls
end

def wfEntries : List (Nat × ELayout) → Prop
  | [] => True
  | e :: es =>
      e.1 < 256 ∧ (serializeLayout e.2).length < 2 ^ 16 ∧ wfLayout e.2 ∧ wfEntries es

mutual
def wfTree : ELTree → Prop
  | .node kind layouts name children =>
      kind < 256 ∧ name.length < 2 ^ 16 ∧ layouts.length < 255 ∧
      children.length < 2 ^ 32 ∧ wfEntries layouts ∧ wfTreeList children
def wfTreeList : List ELTree → Prop
  | [] => True
  | t :: ts => wfTree t ∧ wfTreeList ts
end

/-! ### Round-trip lemmas for the byte primitives -/

theorem readUInt16_write (n : Nat) (rest : List Nat) (h : n < 2 ^ 16) :
    readUInt16 (writeUInt16LE n ++ rest) = some (n, rest) := by
  simp only [writeUInt16LE, List.cons_append, List.nil_append, readUInt16]
  have : n % 256 + 256 * (n / 256 % 256) = n := by omega
  rw [this]

theorem readUInt32_write (n : Nat) (rest : List Nat) (h : n < 2 ^ 32) :
    readUInt32 (writeUInt32LE n ++ rest) = some (n, rest) := by
  simp only [writeUInt32LE, List.cons_append, List.nil_append, readUInt32]
  have : n % 256 + 256 * (n / 256 % 256) + 65536 * (n / 65536 % 256) +
      16777216 * (n / 16777216 % 256) = n := by omega
  rw [this]

theorem readChunk_append (l rest : List Nat) :
    readChunk l.length (l ++ rest) = some (l, rest) := by
  simp [readChunk, List.take_left, List.drop_left]

/-! ### Structural helper lemmas -/

theorem serializeLayoutList_eq_flatten (cs : List ELayout) :
    serializeLayoutList cs = (cs.map serializeLayout).flatten := by
  induction cs with
  | nil => rfl
  | cons l ls ih => simp [serializeLayoutList, ih]

theorem serializeTreeList_eq_flatten (ts : List ELTree) :
    serializeTreeList ts = (ts.map serializeTree).flatten := by
  induction ts with
  | nil => rfl
  | cons t ts ih => simp [serializeTreeList, ih]

theorem wfLayoutList_mem {cs : List ELayout} (h : wfLayoutList cs) {c : ELayout}
    (hc : c ∈ cs) : wfLayout c := by
  induction cs with
  | nil => cases hc
  | cons x xs ih =>
      rw [wfLayoutList] at h
      rcases List.mem_cons.mp hc with rfl | hc'
      · exact h.1
      · exact ih h.2 hc'

theorem wfTreeList_mem {ts : List ELTree} (h : wfTreeList ts) {t : ELTree}
    (ht : t ∈ ts) : wfTree t := by
  induction ts with
  | nil => cases ht
  | cons x xs ih =>
      rw [wfTreeList] at h
      rcases List.mem_cons.mp ht with rfl | ht'
      · exact h.1
      · exact ih h.2 ht'

theorem wfEntries_mem {es : List (Nat × ELayout)} (h : wfEntries es)
    {e : Nat × ELayout} (he : e ∈ es) :
    e.1 < 256 ∧ (serializeLayout e.2).length < 2 ^ 16 ∧ wfLayout e.2 := by
  induction es with
  | nil => cases he
  | cons x xs ih =>
      rw [wfEntries] at h
      rcases List.mem_cons.mp he with rfl | he'
      · exact ⟨h.1, h.2.1, h.2.2.1⟩
      · exact ih h.2.2.2 he'

theorem serializeLayout_length_le {c : ELayout} {cs : List ELayout} (h : c ∈ cs) :
    (serializeLayout c).length ≤ (serializeLayoutList cs).length := by
  induction cs with
  | nil => cases h
  | cons x xs ih =>
      rw [serializeLayoutList]
      rcases List.mem_cons.mp h with rfl | h'
      · simp
      · simp only [List.length_append]
        exact le_trans (ih h') (Nat.le_add_left _ _)

theorem serializeTree_length_le {c : ELTree} {ts : List ELTree} (h : c ∈ ts) :
    (serializeTree c).length ≤ (serializeTreeList ts).length := by
  induction ts with
  | nil => cases h
  | cons x xs ih =>
      rw [serializeTreeList]
      rcases List.mem_cons.mp h with rfl | h'
      · simp
      · simp only [List.length_append]
        exact le_trans (ih h') (Nat.le_add_left _ _)

/-- Generic round trip for the count-driven parse loops: if each element of
`xs` parses back from its serialisation, the whole list does. -/
theorem parseList_roundtrip {β : Type} (p : List Nat → Option (β × List Nat))
    (ser : β → List Nat) (xs : List β) (rest : List Nat)
    (h : ∀ x ∈ xs, ∀ r, p (ser x ++ r) = some (x, r)) :
    parseList p xs.length ((xs.map ser).flatten ++ rest) = some (xs, rest) := by
  induction xs with
  | nil => simp [parseList]
  | cons x xs ih =>
      simp only [List.map_cons, List.flatten_cons, List.length_cons,
        List.append_assoc]
      rw [parseList, h x (List.mem_cons_self x xs) ((xs.map ser).flatten ++ rest)]
      simp only [Option.bind_eq_bind, Option.some_bind]
      rw [ih (fun y hy r => h y (List.mem_cons_of_mem x hy) r)]
      rfl

theorem parseLayout_roundtrip :
    ∀ (fuel : Nat) (l : ELayout) (rest : List Nat), wfLayout l →
    (serializeLayout l).length < fuel →
    parseLayout fuel (serializeLayout l ++ rest) = some (l, rest) := by
  intro fuel
  induction fuel with
  | zero =>
      intro l rest _ h
      omega
  | succ fuel ih =>
      intro l rest hwf hlen
      obtain ⟨k, c, cs⟩ := l
      rw [wfLayout] at hwf
      obtain ⟨hk, hc, hcnt, hwfl⟩ := hwf
      have hser : serializeLayout (ELayout.node k c cs) =
          k :: c :: cs.length :: serializeLayoutList cs := by
        rw [serializeLayout, Nat.mod_eq_of_lt hk, Nat.mod_eq_of_lt hc,
          Nat.mod_eq_of_lt hcnt]
      rw [hser] at hlen ⊢
      have hkids : ∀ x ∈ cs, ∀ r,
          parseLayout fuel (serializeLayout x ++ r) = some (x, r) := by
        intro x hx r
        refine ih x r (wfLayoutList_mem hwfl hx) ?_
        have hle := serializeLayout_length_le hx
        simp only [List.length_cons] at hlen
        omega
      rw [parseLayout]
      simp only [List.cons_append, readByte, Option.bind_eq_bind, Option.some_bind]
      rw [serializeLayoutList_eq_flatten,
        parseList_roundtrip (parseLayout fuel) serializeLayout cs rest hkids]
      rfl

theorem parseLayoutEntry_roundtrip (id : Nat) (l : ELayout) (rest : List Nat)
    (hid : id < 256) (hlen : (serializeLayout l).length < 2 ^ 16)
    (hwf : wfLayout l) :
    parseLayoutEntry (serializeEntry (id, l) ++ rest) = some ((id, l), rest) := by
  have hser : serializeEntry (id, l) =
      id :: (writeUInt16LE (serializeLayout l).length ++ serializeLayout l) := by
    rw [serializeEntry]
    simp only
    rw [Nat.mod_eq_of_lt hid]
  rw [hser, parseLayoutEntry]
  simp only [List.cons_append, List.append_assoc, readByte, Option.bind_eq_bind,
    Option.some_bind]
  rw [readUInt16_write _ _ hlen]
  simp only [Option.some_bind]
  rw [readChunk_append]
  simp only [Option.some_bind]
  have hparse := parseLayout_roundtrip ((serializeLayout l).length + 1) l [] hwf
    (by omega)
  rw [List.append_nil] at hparse
  rw [hparse]
  simp

theorem createInternal_roundtrip :
    ∀ (fuel : Nat) (t : ELTree) (rest : List Nat), wfTree t →
    (serializeTree t).length < fuel →
    createInternal fuel (serializeTree t ++ rest) = some (t, rest) := by
  intro fuel
  induction fuel with
  | zero =>
      intro t rest _ h
      omega
  | succ fuel ih =>
      intro t rest hwf hlen
      obtain ⟨kind, layouts, name, children⟩ := t
      rw [wfTree] at hwf
      obtain ⟨hkind, hname, hlcnt, hccnt, hentries, hchildren⟩ := hwf
      have hser : serializeTree (ELTree.node kind layouts name children) =
          kind :: (writeUInt16LE name.length ++ name ++
            (layouts.length :: (layouts.map serializeEntry).flatten) ++
            writeUInt32LE children.length ++ serializeTreeList children) := by
        rw [serializeTree, Nat.mod_eq_of_lt hkind, Nat.mod_eq_of_lt (by omega)]
      rw [hser] at hlen ⊢
      have hkids : ∀ x ∈ children, ∀ r,
          createInternal fuel (serializeTree x ++ r) = some (x, r) := by
        intro x hx r
        refine ih x r (wfTreeList_mem hchildren hx) ?_
        have hle := serializeTree_length_le hx
        simp only [List.length_cons, List.length_append, writeUInt16LE,
          writeUInt32LE, List.length_cons, List.length_nil] at hlen
        omega
      have hents : ∀ e ∈ layouts, ∀ r,
          parseLayoutEntry (serializeEntry e ++ r) = some (e, r) := by
        intro e he r
        obtain ⟨id, l⟩ := e
        obtain ⟨h1, h2, h3⟩ := wfEntries_mem hentries he
        exact parseLayoutEntry_roundtrip id l r h1 h2 h3
      rw [createInternal]
      simp only [List.cons_append, List.append_assoc, readByte,
        Option.bind_eq_bind, Option.some_bind]
      rw [readUInt16_write _ _ hname]
      simp only [Option.some_bind]
      rw [readChunk_append]
      simp only [Option.some_bind, List.cons_append, readByte]
      rw [parseList_roundtrip parseLayoutEntry serializeEntry layouts _ hents]
      simp only [Option.some_bind]
      rw [readUInt32_write _ _ hccnt]
      simp only [Option.some_bind]
      rw [serializeTreeList_eq_flatten,
        parseList_roundtrip (createInternal fuel) serializeTree children rest hkids]
      rfl

/-! ## C3: encoding layout tree serialisation round trip -/

/-- **C3.** For every well-formed encoding layout tree (in particular every
node carries fewer than 255 per-stream layouts, as the C++ constructor
enforces), parsing the serialised bytes yields the tree back — same schema
kind, name, stream-identifier-to-layout entries and children, recursively —
and the parse consumes exactly the bytes `serialize` wrote: with arbitrary
following bytes `rest`, parsing returns precisely `rest` unconsumed. -/
theorem encodingLayoutTree_roundtrip (t : ELTree) (rest : List Nat)
    (h : wfTree t) :
    createInternal ((serializeTree t).length + (rest.length + 1))
        (serializeTree t ++ rest) = some (t, rest) ∧
    ELTree.create (serializeTree t) = some t := by
  constructor
  · exact createInternal_roundtrip _ t rest h (by omega)
  · unfold ELTree.create
    have hrt := createInternal_roundtrip ((serializeTree t).length + 1) t [] h
      (by omega)
    rw [List.append_nil] at hrt
    rw [hrt]
    rfl

/-- Witness for C3 at a concrete two-level tree with a nested layout. -/
theorem encodingLayoutTree_roundtrip_witness :
    wfTree (ELTree.node 1 [(2, ELayout.node 3 0 [ELayout.node 1 1 []])] [65, 66]
      [ELTree.node 5 [] [] []]) ∧
    createInternal
        ((serializeTree (ELTree.node 1 [(2, ELayout.node 3 0 [ELayout.node 1 1 []])]
          [65, 66] [ELTree.node 5 [] [] []])).length + ([9, 9].length + 1))
        (serializeTree (ELTree.node 1 [(2, ELayout.node 3 0 [ELayout.node 1 1 []])]
          [65, 66] [ELTree.node 5 [] [] []]) ++ [9, 9]) =
      some (ELTree.node 1 [(2, ELayout.node 3 0 [ELayout.node 1 1 []])] [65, 66]
        [ELTree.node 5 [] [] []], [9, 9]) ∧
    ELTree.create (serializeTree (ELTree.node 1
        [(2, ELayout.node 3 0 [ELayout.node 1 1 []])] [65, 66]
        [ELTree.node 5 [] [] []])) =
      some (ELTree.node 1 [(2, ELayout.node 3 0 [ELayout.node 1 1 []])] [65, 66]
        [ELTree.node 5 [] [] []]) := by
  have hwf : wfTree (ELTree.node 1 [(2, ELayout.node 3 0 [ELayout.node 1 1 []])]
      [65, 66] [ELTree.node 5 [] [] []]) := by
    simp [wfTree, wfTreeList, wfEntries, wfLayout, wfLayoutList, serializeLayout,
      serializeLayoutList]
  obtain ⟨h1, h2⟩ := encodingLayoutTree_roundtrip
    (ELTree.node 1 [(2, ELayout.node 3 0 [ELayout.node 1 1 []])] [65, 66]
      [ELTree.node 5 [] [] []]) [9, 9] hwf
  exact ⟨hwf, h1, h2⟩

/-! ## Flat-map layout planner (`src/dwio/alpha/velox/FlatMapLayoutPlanner.cpp`)

The schema type tree (`TypeBuilder`) with the stream-descriptor offsets each
node owns; flat-map children carry their in-map descriptor offset.  Row and
flat-map children are name/value pairs; the C++ `int64_t` feature keys are
compared against child names after `folly::to<std::string>` conversion, so
features are modelled as the converted strings. -/

inductive TypeB where
  | scalar (valuesOff : Nat)
  | row (nullsOff : Nat) (children : List (String × TypeB))
  | array (lengthsOff : Nat) (elements : TypeB)
  | arrayWithOffsets (offsetsOff lengthsOff : Nat) (elements : TypeB)
  | map (lengthsOff : Nat) (keys values : TypeB)
  | flatMap (nullsOff : Nat) (children : List (String × Nat × TypeB))
  deriving Repr

mutual
/-- `appendAllNestedStreams` (FlatMapLayoutPlanner.cpp lines 10-56): all the
stream offsets of a subtree in schema preorder. -/
def appendAllNestedStreams : TypeB → List Nat
  | .scalar valuesOff => [valuesOff]
  | .row nullsOff children => nullsOff :: appendAllNestedStreamsRow children
  | .array lengthsOff elements => lengthsOff :: appendAllNestedStreams elements
  | .arrayWithOffsets offsetsOff lengthsOff elements =>
      offsetsOff :: lengthsOff :: appendAllNestedStreams elements
  | .map lengthsOff keys values =>
      lengthsOff :: (appendAllNestedStreams keys ++ appendAllNestedStreams values)
  | .flatMap nullsOff children => nullsOff :: appendAllNestedStreamsFlatMap children
def appendAllNestedStreamsRow : List (String × TypeB) → List Nat
  | [] => []
  | c :: rest => appendAllNestedStreams c.2 ++ appendAllNestedStreamsRow rest
def appendAllNestedStreamsFlatMap : List (String × Nat × TypeB) → List Nat
  | [] => []
  | c :: rest =>
      c.2.1 :: appendAllNestedStreams c.2.2 ++ appendAllNestedStreamsFlatMap rest
end

/-- A stripe stream: its schema offset and (abstract) payload. -/
structure Stream where
  offset : Nat
  content : Nat
  deriving Repr, DecidableEq

inductive PlannerError where
  | notRowRoot
  | invalidLayoutRequest
  | streamCountMismatch
  deriving Repr, DecidableEq

/-- The feature-name lookup table built per flat map
(FlatMapLayoutPlanner.cpp lines 115-119); `unordered_map::insert` keeps the
first entry for a duplicate name. -/
def lookupFeature : List (String × Nat × TypeB) → String → Option (Nat × TypeB)
  | [], _ => none
  | c :: rest, feat => if c.1 = feat then some c.2 else lookupFeature rest feat

/-- The per-feature loop (FlatMapLayoutPlanner.cpp lines 123-133): a feature
absent from the schema is skipped, a present one contributes its in-map
stream followed by its value subtree in preorder. -/
def featureOffsets (fmChildren : List (String × Nat × TypeB)) :
    List String → List Nat
  | [] => []
  | feat :: feats =>
      match lookupFeature fmChildren feat with
      | none => featureOffsets fmChildren feats
      | some (inMapOff, t) =>
          (inMapOff :: appendAllNestedStreams t) ++ featureOffsets fmChildren feats

/-- The config loop (FlatMapLayoutPlanner.cpp lines 94-134): each configured
column must be an in-range child of the root row and a flat map
(`ALPHA_CHECK`, surfaced as `InvalidLayoutRequest`); it contributes its
nulls stream then its ordered feature streams. -/
def flatMapFeatureOffsets (children : List (String × TypeB)) :
    List (Nat × List String) → Except PlannerError (List Nat)
  | [] => .ok []
  | (ord, feats) :: rest =>
      match children.get? ord with
      | some (_, .flatMap nullsOff fmChildren) =>
          match flatMapFeatureOffsets children rest with
          | .error e => .error e
          | .ok tail => .ok ((nullsOff :: featureOffsets fmChildren feats) ++ tail)
      | _ => .error .invalidLayoutRequest

/-- `offsetsToStreams` (FlatMapLayoutPlanner.cpp lines 144-150): an
`unordered_map` keyed by offset, keeping the first stream inserted for a
duplicate offset. -/
def dedupByOffsetGo (seen : List Nat) : List Stream → List Stream
  | [] => []
  | s :: rest =>
      if s.offset ∈ seen then dedupByOffsetGo seen rest
      else s :: dedupByOffsetGo (s.offset :: seen) rest

def dedupByOffset (streams : List Stream) : List Stream :=
  dedupByOffsetGo [] streams

/-- `tryAppendStream` (FlatMapLayoutPlanner.cpp lines 155-161): find the
stream with a given offset, move it out of the pool. -/
def extractFirst (off : Nat) : List Stream → Option (Stream × List Stream)
  | [] => none
  | s :: rest =>
      if s.offset = off then some (s, rest)
      else (extractFirst off rest).map (fun p => (p.1, s :: p.2))

/-- The three `tryAppendStream` loops (FlatMapLayoutPlanner.cpp lines
167-180), fused over the concatenated offset order. -/
def extractAll : List Nat → List Stream → List Stream × List Stream
  | [], pool => ([], pool)
  | off :: offs, pool =>
      match extractFirst off pool with
      | none => extractAll offs pool
      | some (s, pool') =>
          let p := extractAll offs pool'
          (s :: p.1, p.2)

/-- `FlatMapLayoutPlanner::getLayout` (FlatMapLayoutPlanner.cpp lines
68-190).  The final `ALPHA_ASSERT` comparing input and output stream counts
is the `streamCountMismatch` branch. -/
def getLayout (root : TypeB) (config : List (Nat × List String))
    (streams : List Stream) : Except PlannerError (List Stream) :=
  match root with
  | .row rootNulls children =>
      match flatMapFeatureOffsets children config with
      | .error e => .error e
      | .ok fm =>
          if (extractAll (rootNulls ::
                (fm ++ appendAllNestedStreams (.row rootNulls children)))
                (dedupByOffset streams)).1.length = streams.length then
            .ok (extractAll (rootNulls ::
              (fm ++ appendAllNestedStreams (.row rootNulls children)))
              (dedupByOffset streams)).1
          else .error .streamCountMismatch
  | _ => .error .notRowRoot

/-- Keep-first de-duplication of an offset list; item 3 of the layout
contract ("each stream is emitted at most once"). -/
def dedupNatFirstGo (seen : List Nat) : List Nat → List Nat
  | [] => []
  | off :: offs =>
      if off ∈ seen then dedupNatFirstGo seen offs
      else off :: dedupNatFirstGo (off :: seen) offs

def dedupNatFirst (offs : List Nat) : List Nat :=
  dedupNatFirstGo [] offs

/-- A configured column ordinal that the planner accepts: in range of the
root row's children (`children.get? ord` is `some`) and referring to a
flat-map node. -/
def validColumn (children : List (String × TypeB)) (ord : Nat) : Prop :=
  ∃ name nullsOff fmChildren,
    children.get? ord = some (name, TypeB.flatMap nullsOff fmChildren)

/-! ### Extraction lemmas -/

theorem extractFirst_perm (off : Nat) :
    ∀ (pool : List Stream) (s : Stream) (rest : List Stream),
    extractFirst off pool = some (s, rest) → pool.Perm (s :: rest) := by
  intro pool
  induction pool with
  | nil => intro s rest h; simp [extractFirst] at h
  | cons x xs ih =>
      intro s rest h
      rw [extractFirst] at h
      split at h
      · rename_i hoff
        obtain ⟨rfl, rfl⟩ : x = s ∧ xs = rest := by
          simpa using h
        exact List.Perm.refl _
      · rename_i hoff
        rw [Option.map_eq_some'] at h
        obtain ⟨⟨x', rest'⟩, heq, hpr⟩ := h
        obtain ⟨h1, h2⟩ : x' = s ∧ x :: rest' = rest := by
          simpa using hpr
        rw [h1] at heq
        rw [← h2]
        exact ((ih s rest' heq).cons x).trans (List.Perm.swap s x rest')

theorem extractAll_perm (offs : List Nat) :
    ∀ (pool : List Stream),
    ((extractAll offs pool).1 ++ (extractAll offs pool).2).Perm pool := by
  induction offs with
  | nil => intro pool; simp [extractAll]
  | cons off offs ih =>
      intro pool
      rw [extractAll]
      cases hx : extractFirst off pool with
      | none => exact ih pool
      | some p =>
          obtain ⟨s, pool'⟩ := p
          have hperm := extractFirst_perm off pool s pool' hx
          exact ((ih pool').cons s).trans hperm.symm

theorem dedupByOffsetGo_sublist :
    ∀ (l : List Stream) (seen : List Nat), (dedupByOffsetGo seen l).Sublist l := by
  intro l
  induction l with
  | nil => intro seen; simp [dedupByOffsetGo]
  | cons s rest ih =>
      intro seen
      rw [dedupByOffsetGo]
      split
      · exact (ih seen).cons s
      · exact (ih (s.offset :: seen)).cons₂ s

/-! ## C6: the layout is a permutation of the input streams -/

/-- **C6.** Whenever `FlatMapLayoutPlanner::getLayout` returns (that is, no
check fails), the returned stream list is a permutation of the input list:
every input stream appears exactly once, none added, none dropped. -/
theorem getLayout_perm (root : TypeB) (config : List (Nat × List String))
    (streams out : List Stream) (h : getLayout root config streams = .ok out) :
    out.Perm streams := by
  cases root with
  | scalar v => simp [getLayout] at h
  | array a b => simp [getLayout] at h
  | arrayWithOffsets a b c => simp [getLayout] at h
  | map a b c => simp [getLayout] at h
  | flatMap a b => simp [getLayout] at h
  | row rootNulls children =>
      rw [getLayout] at h
      split at h
      · cases h
      · rename_i fm hfm
        split at h
        · rename_i hlen
          obtain rfl : (extractAll (rootNulls ::
              (fm ++ appendAllNestedStreams (.row rootNulls children)))
              (dedupByOffset streams)).1 = out := by
            simpa using h
          have hperm := extractAll_perm (rootNulls ::
            (fm ++ appendAllNestedStreams (.row rootNulls children)))
            (dedupByOffset streams)
          have hsub : (dedupByOffset streams).Sublist streams :=
            dedupByOffsetGo_sublist streams []
          have hlenle : (dedupByOffset streams).length ≤ streams.length :=
            hsub.length_le
          have hlens := hperm.length_eq
          simp only [List.length_append] at hlens
          have hrest : (extractAll (rootNulls ::
              (fm ++ appendAllNestedStreams (.row rootNulls children)))
              (dedupByOffset streams)).2 = [] := by
            refine List.length_eq_zero.mp ?_
            omega
          rw [hrest, List.append_nil] at hperm
          have hpool : dedupByOffset streams = streams := by
            refine hsub.eq_of_length ?_
            have h2 := hperm.length_eq
            omega
          have hfin : (dedupByOffset streams).Perm streams := by
            rw [hpool]
          exact hperm.trans hfin
        · cases h

/-- Witness for C6 on a concrete schema with one flat map of two features. -/
theorem getLayout_perm_witness :
    getLayout
        (TypeB.row 0 [("a", TypeB.scalar 1),
          ("m", TypeB.flatMap 2 [("k1", 3, TypeB.scalar 4), ("k2", 5, TypeB.scalar 6)])])
        [(1, ["k2"])]
        [⟨0, 0⟩, ⟨1, 10⟩, ⟨2, 20⟩, ⟨3, 30⟩, ⟨4, 40⟩, ⟨5, 50⟩, ⟨6, 60⟩] =
      Except.ok [⟨0, 0⟩, ⟨2, 20⟩, ⟨5, 50⟩, ⟨6, 60⟩, ⟨1, 10⟩, ⟨3, 30⟩, ⟨4, 40⟩] ∧
    List.Perm [⟨0, 0⟩, ⟨2, 20⟩, ⟨5, 50⟩, ⟨6, 60⟩, ⟨1, 10⟩, ⟨3, 30⟩, ⟨4, 40⟩]
      [(⟨0, 0⟩ : Stream), ⟨1, 10⟩, ⟨2, 20⟩, ⟨3, 30⟩, ⟨4, 40⟩, ⟨5, 50⟩, ⟨6, 60⟩] :=
  ⟨rfl,
    getLayout_perm
      (TypeB.row 0 [("a", TypeB.scalar 1),
        ("m", TypeB.flatMap 2 [("k1", 3, TypeB.scalar 4), ("k2", 5, TypeB.scalar 6)])])
      [(1, ["k2"])]
      [⟨0, 0⟩, ⟨1, 10⟩, ⟨2, 20⟩, ⟨3, 30⟩, ⟨4, 40⟩, ⟨5, 50⟩, ⟨6, 60⟩]
      [⟨0, 0⟩, ⟨2, 20⟩, ⟨5, 50⟩, ⟨6, 60⟩, ⟨1, 10⟩, ⟨3, 30⟩, ⟨4, 40⟩]
      rfl⟩

/-! ### Error handling of the config loop -/

theorem flatMapFeatureOffsets_error (children : List (String × TypeB)) :
    ∀ (config : List (Nat × List String)) (ord : Nat) (feats : List String),
    (ord, feats) ∈ config → ¬ validColumn children ord →
    flatMapFeatureOffsets children config = .error .invalidLayoutRequest := by
  intro config
  induction config with
  | nil => intro ord feats hmem _; cases hmem
  | cons e rest ih =>
      intro ord feats hmem hnv
      obtain ⟨o, fs⟩ := e
      rw [flatMapFeatureOffsets]
      rcases List.mem_cons.mp hmem with heq | hmem'
      · injection heq with h1 h2
        subst h1
        subst h2
        cases hty : children.get? ord with
        | none => simp [hty]
        | some c =>
            obtain ⟨name, t⟩ := c
            cases t with
            | flatMap nullsOff fmChildren =>
                exact absurd ⟨name, nullsOff, fmChildren, hty⟩ hnv
            | scalar v => simp [hty]
            | row a b => simp [hty]
            | array a b => simp [hty]
            | arrayWithOffsets a b c => simp [hty]
            | map a b c => simp [hty]
      · cases hty : children.get? o with
        | none => simp [hty]
        | some c =>
            obtain ⟨name, t⟩ := c
            cases t with
            | flatMap nullsOff fmChildren =>
                rw [ih ord feats hmem' hnv]
            | scalar v => simp [hty]
            | row a b => simp [hty]
            | array a b => simp [hty]
            | arrayWithOffsets a b c => simp [hty]
            | map a b c => simp [hty]

theorem featureOffsets_skip_absent (fmChildren : List (String × Nat × TypeB))
    (feat : String) (hnone : lookupFeature fmChildren feat = none) :
    ∀ (fa fb : List String),
    featureOffsets fmChildren (fa ++ feat :: fb) =
      featureOffsets fmChildren (fa ++ fb) := by
  intro fa
  induction fa with
  | nil =>
      intro fb
      simp only [List.nil_append]
      rw [featureOffsets, hnone]
  | cons f fa ih =>
      intro fb
      simp only [List.cons_append]
      rw [featureOffsets, featureOffsets, ih fb]

theorem flatMapFeatureOffsets_skip_absent (children : List (String × TypeB))
    (ord : Nat) (fa fb : List String) (feat : String)
    (habsent : ∀ (name : String) (nullsOff : Nat)
      (fmChildren : List (String × Nat × TypeB)),
      children.get? ord = some (name, TypeB.flatMap nullsOff fmChildren) →
      lookupFeature fmChildren feat = none) :
    ∀ (before after : List (Nat × List String)),
    flatMapFeatureOffsets children (before ++ (ord, fa ++ feat :: fb) :: after) =
      flatMapFeatureOffsets children (before ++ (ord, fa ++ fb) :: after) := by
  intro before
  induction before with
  | nil =>
      intro after
      simp only [List.nil_append]
      rw [flatMapFeatureOffsets, flatMapFeatureOffsets]
      cases hty : children.get? ord with
      | none => simp [hty]
      | some c =>
          obtain ⟨name, t⟩ := c
          cases t with
          | flatMap nullsOff fmChildren =>
              have hskip := featureOffsets_skip_absent fmChildren feat
                (habsent name nullsOff fmChildren hty) fa fb
              simp [hskip]
          | scalar v => simp [hty]
          | row a b => simp [hty]
          | array a b => simp [hty]
          | arrayWithOffsets a b c => simp [hty]
          | map a b c => simp [hty]
  | cons e rest ih =>
      intro after
      obtain ⟨o, fs⟩ := e
      simp only [List.cons_append]
      rw [flatMapFeatureOffsets, flatMapFeatureOffsets]
      cases hty : children.get? o with
      | none => simp [hty]
      | some c =>
          obtain ⟨name, t⟩ := c
          cases t with
          | flatMap nullsOff fmChildren => simp [ih after]
          | scalar v => simp [hty]
          | row a b => simp [hty]
          | array a b => simp [hty]
          | arrayWithOffsets a b c => simp [hty]
          | map a b c => simp [hty]

/-! ## C8: invalid columns fail, absent features are skipped -/

/-- **C8.** The planner fails with `InvalidLayoutRequest` whenever a
configured column ordinal is out of range of the root row's children or
does not refer to a flat-map node; a requested feature key absent from the
schema is silently skipped — the planner behaves exactly as if the key had
not been requested. -/
theorem getLayout_error_handling :
    (∀ (rootNulls : Nat) (children : List (String × TypeB))
        (config : List (Nat × List String)) (streams : List Stream)
        (ord : Nat) (feats : List String),
        (ord, feats) ∈ config → ¬ validColumn children ord →
        getLayout (.row rootNulls children) config streams =
          .error .invalidLayoutRequest) ∧
    (∀ (rootNulls : Nat) (children : List (String × TypeB))
        (before after : List (Nat × List String)) (streams : List Stream)
        (ord : Nat) (fa fb : List String) (feat : String),
        (∀ (name : String) (nullsOff : Nat)
            (fmChildren : List (String × Nat × TypeB)),
            children.get? ord = some (name, TypeB.flatMap nullsOff fmChildren) →
            lookupFeature fmChildren feat = none) →
        getLayout (.row rootNulls children)
            (before ++ (ord, fa ++ feat :: fb) :: after) streams =
          getLayout (.row rootNulls children)
            (before ++ (ord, fa ++ fb) :: after) streams) := by
  constructor
  · intro rootNulls children config streams ord feats hmem hnv
    rw [getLayout, flatMapFeatureOffsets_error children config ord feats hmem hnv]
  · intro rootNulls children before after streams ord fa fb feat habsent
    rw [getLayout, getLayout,
      flatMapFeatureOffsets_skip_absent children ord fa fb feat habsent before after]

/-- Witness for C8: a non-flat-map column ordinal fails; an absent feature
key changes nothing. -/
theorem getLayout_error_handling_witness :
    ((0, ["z"]) ∈ [((0 : Nat), ["z"])] ∧
      ¬ validColumn [("a", TypeB.scalar 1)] 0 ∧
      getLayout (.row 0 [("a", TypeB.scalar 1)]) [(0, ["z"])] [⟨0, 0⟩, ⟨1, 10⟩] =
        .error .invalidLayoutRequest) ∧
    ((∀ (name : String) (nullsOff : Nat)
        (fmChildren : List (String × Nat × TypeB)),
        ([("m", TypeB.flatMap 1 [("k", 2, TypeB.scalar 3)])] :
          List (String × TypeB)).get? 0 =
            some (name, TypeB.flatMap nullsOff fmChildren) →
        lookupFeature fmChildren "zz" = none) ∧
      getLayout (.row 0 [("m", TypeB.flatMap 1 [("k", 2, TypeB.scalar 3)])])
          ([] ++ (0, ["k"] ++ "zz" :: []) :: []) [⟨0, 0⟩, ⟨1, 10⟩] =
        getLayout (.row 0 [("m", TypeB.flatMap 1 [("k", 2, TypeB.scalar 3)])])
          ([] ++ (0, ["k"] ++ []) :: []) [⟨0, 0⟩, ⟨1, 10⟩]) := by
  have habsent : ∀ (name : String) (nullsOff : Nat)
      (fmChildren : List (String × Nat × TypeB)),
      ([("m", TypeB.flatMap 1 [("k", 2, TypeB.scalar 3)])] :
        List (String × TypeB)).get? 0 =
          some (name, TypeB.flatMap nullsOff fmChildren) →
      lookupFeature fmChildren "zz" = none := by
    intro name nullsOff fmChildren hty
    have h2 : ("m", TypeB.flatMap 1 [("k", 2, TypeB.scalar 3)]) =
        (name, TypeB.flatMap nullsOff fmChildren) := by
      simpa [List.get?] using hty
    injection h2 with h3 h4
    cases h4
    rfl
  have hnv : ¬ validColumn [("a", TypeB.scalar 1)] 0 := by
    rintro ⟨name, nullsOff, fmChildren, hty⟩
    simp [List.get?] at hty
  refine ⟨⟨List.mem_singleton.mpr rfl, hnv, ?_⟩, habsent, ?_⟩
  · exact getLayout_error_handling.1 0 [("a", TypeB.scalar 1)] [(0, ["z"])]
      [⟨0, 0⟩, ⟨1, 10⟩] 0 ["z"] (List.mem_singleton.mpr rfl) hnv
  · exact getLayout_error_handling.2 0 [("m", TypeB.flatMap 1 [("k", 2, TypeB.scalar 3)])]
      [] [] [⟨0, 0⟩, ⟨1, 10⟩] 0 ["k"] [] "zz" habsent

/-! ### Extraction order: supporting lemmas for the layout order claim -/

theorem dedupNatFirstGo_mem :
    ∀ (offs : List Nat) (seen : List Nat) (o : Nat),
    o ∈ dedupNatFirstGo seen offs ↔ o ∈ offs ∧ o ∉ seen := by
  intro offs
  induction offs with
  | nil => intro seen o; simp [dedupNatFirstGo]
  | cons off offs ih =>
      intro seen o
      rw [dedupNatFirstGo]
      split
      · rename_i hseen
        rw [ih]
        constructor
        · rintro ⟨h1, h2⟩
          exact ⟨List.mem_cons_of_mem _ h1, h2⟩
        · rintro ⟨h1, h2⟩
          rcases List.mem_cons.mp h1 with rfl | h1'
          · exact absurd hseen h2
          · exact ⟨h1', h2⟩
      · rename_i hseen
        simp only [List.mem_cons, ih]
        constructor
        · rintro (rfl | ⟨h1, h2⟩)
          · exact ⟨Or.inl rfl, hseen⟩
          · refine ⟨Or.inr h1, fun hc => h2 ?_⟩
            simp [hc]
        · rintro ⟨rfl | h1, h2⟩
          · exact Or.inl rfl
          · by_cases ho : o = off
            · exact Or.inl ho
            · exact Or.inr ⟨h1, by simp [ho, h2]⟩

theorem dedupNatFirstGo_nodup :
    ∀ (offs : List Nat) (seen : List Nat), (dedupNatFirstGo seen offs).Nodup := by
  intro offs
  induction offs with
  | nil => intro seen; simp [dedupNatFirstGo]
  | cons off offs ih =>
      intro seen
      rw [dedupNatFirstGo]
      split
      · exact ih seen
      · refine List.nodup_cons.mpr ⟨?_, ih (off :: seen)⟩
        intro hc
        exact ((dedupNatFirstGo_mem offs (off :: seen) off).mp hc).2
          (List.mem_cons_self off seen)

theorem dedupByOffsetGo_id :
    ∀ (streams : List Stream) (seen : List Nat),
    (streams.map Stream.offset).Nodup →
    (∀ s ∈ streams, s.offset ∉ seen) →
    dedupByOffsetGo seen streams = streams := by
  intro streams
  induction streams with
  | nil => intro seen _ _; rfl
  | cons s rest ih =>
      intro seen hnd hdisj
      rw [dedupByOffsetGo]
      rw [if_neg (hdisj s (List.mem_cons_self s rest))]
      simp only [List.map_cons, List.nodup_cons] at hnd
      rw [ih (s.offset :: seen) hnd.2 ?_]
      intro t ht
      simp only [List.mem_cons, not_or]
      refine ⟨?_, hdisj t (List.mem_cons_of_mem s ht)⟩
      intro hc
      exact hnd.1 (hc ▸ List.mem_map_of_mem Stream.offset ht)

theorem extractFirst_eq_none :
    ∀ (pool : List Stream) (off : Nat),
    extractFirst off pool = none ↔ off ∉ pool.map Stream.offset := by
  intro pool
  induction pool with
  | nil => intro off; simp [extractFirst]
  | cons s rest ih =>
      intro off
      rw [extractFirst]
      split
      · rename_i hoff
        simp [hoff.symm]
      · rename_i hoff
        rw [Option.map_eq_none']
        rw [ih off]
        simp only [List.map_cons, List.mem_cons, not_or]
        constructor
        · intro h
          exact ⟨fun hc => hoff hc.symm, h⟩
        · intro h
          exact h.2

theorem extractFirst_some_offset :
    ∀ (pool : List Stream) (off : Nat) (s : Stream) (rest : List Stream),
    extractFirst off pool = some (s, rest) → s.offset = off := by
  intro pool
  induction pool with
  | nil => intro off s rest h; simp [extractFirst] at h
  | cons x xs ih =>
      intro off s rest h
      rw [extractFirst] at h
      split at h
      · rename_i hoff
        obtain ⟨rfl, rfl⟩ : x = s ∧ xs = rest := by simpa using h
        assumption
      · rw [Option.map_eq_some'] at h
        obtain ⟨⟨x', rest'⟩, heq, hpr⟩ := h
        obtain ⟨h1, h2⟩ : x' = s ∧ x :: rest' = rest := by simpa using hpr
        rw [h1] at heq
        exact ih off s rest' heq

theorem extractFirst_some_map :
    ∀ (pool : List Stream) (off : Nat) (s : Stream) (rest : List Stream),
    extractFirst off pool = some (s, rest) →
    rest.map Stream.offset = (pool.map Stream.offset).erase off := by
  intro pool
  induction pool with
  | nil => intro off s rest h; simp [extractFirst] at h
  | cons x xs ih =>
      intro off s rest h
      rw [extractFirst] at h
      split at h
      · rename_i hoff
        obtain ⟨rfl, rfl⟩ : x = s ∧ xs = rest := by simpa using h
        simp [List.erase_cons_head, hoff]
      · rename_i hoff
        rw [Option.map_eq_some'] at h
        obtain ⟨⟨x', rest'⟩, heq, hpr⟩ := h
        obtain ⟨h1, h2⟩ : x' = s ∧ x :: rest' = rest := by simpa using hpr
        rw [h1] at heq
        rw [← h2]
        simp only [List.map_cons]
        rw [ih off s rest' heq]
        rw [List.erase_cons_tail]
        simp [hoff]

/-- What stream extraction does to the offsets, for a pool with pairwise
distinct offsets: the result follows the requested order, keeps only the
first occurrence of each offset, and drops offsets with no stream. -/
theorem extractAll_map_offset :
    ∀ (offs : List Nat) (pool : List Stream) (seen : List Nat),
    (pool.map Stream.offset).Nodup →
    (∀ o ∈ seen, o ∉ pool.map Stream.offset) →
    (extractAll offs pool).1.map Stream.offset =
      (dedupNatFirstGo seen offs).filter
        (fun o => decide (o ∈ pool.map Stream.offset)) := by
  intro offs
  induction offs with
  | nil => intro pool seen _ _; simp [extractAll, dedupNatFirstGo]
  | cons off offs ih =>
      intro pool seen hnd hdisj
      rw [extractAll, dedupNatFirstGo]
      by_cases hseen : off ∈ seen
      · rw [if_pos hseen]
        have hnone : extractFirst off pool = none :=
          (extractFirst_eq_none pool off).mpr (hdisj off hseen)
        rw [hnone]
        exact ih pool seen hnd hdisj
      · rw [if_neg hseen]
        by_cases hin : off ∈ pool.map Stream.offset
        · cases hx : extractFirst off pool with
          | none => exact absurd ((extractFirst_eq_none pool off).mp hx) (by simpa using hin)
          | some p =>
              obtain ⟨s, pool'⟩ := p
              have hsoff := extractFirst_some_offset pool off s pool' hx
              have hmap := extractFirst_some_map pool off s pool' hx
              have hnd' : (pool'.map Stream.offset).Nodup := by
                rw [hmap]
                exact hnd.erase off
              have hdisj' : ∀ o ∈ off :: seen, o ∉ pool'.map Stream.offset := by
                intro o ho
                rw [hmap]
                rcases List.mem_cons.mp ho with rfl | ho'
                · exact hnd.not_mem_erase
                · intro hc
                  exact hdisj o ho' (List.erase_subset _ _ hc)
              have hih := ih pool' (off :: seen) hnd' hdisj'
              rw [List.filter_cons_of_pos (by simpa using hin)]
              simp only [List.map_cons, hih, hsoff]
              congr 1
              refine List.filter_congr ?_
              intro o ho
              have hne : o ≠ off := by
                intro hc
                exact ((dedupNatFirstGo_mem offs (off :: seen) o).mp ho).2
                  (hc ▸ List.mem_cons_self off seen)
              rw [hmap]
              simp only [decide_eq_decide]
              exact List.mem_erase_of_ne hne
        · have hnone : extractFirst off pool = none :=
            (extractFirst_eq_none pool off).mpr hin
          rw [hnone]
          rw [List.filter_cons_of_neg (by simpa using hin)]
          refine ih pool (off :: seen) hnd ?_
          intro o ho
          rcases List.mem_cons.mp ho with rfl | ho'
          · exact hin
          · exact hdisj o ho'

/-! ### The configured flat-map streams all lie in the schema preorder -/

theorem mem_row_subtree (name : String) (t : TypeB) :
    ∀ (children : List (String × TypeB)), (name, t) ∈ children →
    ∀ o ∈ appendAllNestedStreams t, o ∈ appendAllNestedStreamsRow children := by
  intro children
  induction children with
  | nil => intro h; cases h
  | cons c rest ih =>
      intro h o ho
      rw [appendAllNestedStreamsRow]
      rcases List.mem_cons.mp h with heq | h'
      · subst heq
        exact List.mem_append_left _ ho
      · exact List.mem_append_right _ (ih h' o ho)

theorem mem_flatMap_subtree (name : String) (im : Nat) (t : TypeB) :
    ∀ (fmChildren : List (String × Nat × TypeB)), (name, im, t) ∈ fmChildren →
    im ∈ appendAllNestedStreamsFlatMap fmChildren ∧
    ∀ o ∈ appendAllNestedStreams t, o ∈ appendAllNestedStreamsFlatMap fmChildren := by
  intro fmChildren
  induction fmChildren with
  | nil => intro h; cases h
  | cons c rest ih =>
      intro h
      rw [appendAllNestedStreamsFlatMap]
      rcases List.mem_cons.mp h with heq | h'
      · subst heq
        constructor
        · exact List.mem_cons_self _ _
        · intro o ho
          exact List.mem_cons_of_mem _ (List.mem_append_left _ ho)
      · obtain ⟨ih1, ih2⟩ := ih h'
        constructor
        · exact List.mem_cons_of_mem _ (List.mem_append_right _ ih1)
        · intro o ho
          exact List.mem_cons_of_mem _ (List.mem_append_right _ (ih2 o ho))

theorem lookupFeature_mem (feat : String) (im : Nat) (t : TypeB) :
    ∀ (fmChildren : List (String × Nat × TypeB)),
    lookupFeature fmChildren feat = some (im, t) → (feat, im, t) ∈ fmChildren := by
  intro fmChildren
  induction fmChildren with
  | nil => intro h; simp [lookupFeature] at h
  | cons c rest ih =>
      intro h
      obtain ⟨cn, ci, ct⟩ := c
      rw [lookupFeature] at h
      split at h
      · rename_i hname
        simp only at hname
        obtain ⟨h1, h2⟩ : ci = im ∧ ct = t := by simpa using h
        subst hname
        subst h1
        subst h2
        exact List.mem_cons_self _ _
      · exact List.mem_cons_of_mem _ (ih h)

theorem featureOffsets_subset (fmChildren : List (String × Nat × TypeB)) :
    ∀ (feats : List String) (o : Nat), o ∈ featureOffsets fmChildren feats →
    o ∈ appendAllNestedStreamsFlatMap fmChildren := by
  intro feats
  induction feats with
  | nil => intro o ho; simp [featureOffsets] at ho
  | cons f fs ih =>
      intro o ho
      rw [featureOffsets] at ho
      cases hl : lookupFeature fmChildren f with
      | none =>
          rw [hl] at ho
          exact ih o ho
      | some p =>
          obtain ⟨im, t⟩ := p
          rw [hl] at ho
          simp only [List.cons_append, List.mem_cons, List.mem_append] at ho
          have hfm := mem_flatMap_subtree f im t fmChildren
            (lookupFeature_mem f im t fmChildren hl)
          rcases ho with rfl | ho' | ho'
          · exact hfm.1
          · exact hfm.2 o ho'
          · exact ih o ho'

theorem flatMapFeatureOffsets_subset (children : List (String × TypeB)) :
    ∀ (config : List (Nat × List String)) (fm : List Nat),
    flatMapFeatureOffsets children config = .ok fm →
    ∀ o ∈ fm, o ∈ appendAllNestedStreamsRow children := by
  intro config
  induction config with
  | nil =>
      intro fm h o ho
      rw [flatMapFeatureOffsets] at h
      obtain rfl : ([] : List Nat) = fm := by simpa using h
      cases ho
  | cons e rest ih =>
      intro fm h o ho
      obtain ⟨ord, feats⟩ := e
      rw [flatMapFeatureOffsets] at h
      cases hty : children.get? ord with
      | none => rw [hty] at h; cases h
      | some c =>
          obtain ⟨name, t⟩ := c
          rw [hty] at h
          cases t with
          | flatMap nullsOff fmChildren =>
              cases hrec : flatMapFeatureOffsets children rest with
              | error e => rw [hrec] at h; cases h
              | ok tail =>
                  rw [hrec] at h
                  obtain rfl : (nullsOff :: featureOffsets fmChildren feats) ++ tail = fm := by
                    simpa using h
                  have hty' : children[ord]? =
                      some (name, TypeB.flatMap nullsOff fmChildren) := by
                    rw [← List.get?_eq_getElem?]
                    exact hty
                  have hchild : (name, TypeB.flatMap nullsOff fmChildren) ∈ children :=
                    List.getElem?_mem hty'
                  have hsub := mem_row_subtree name (TypeB.flatMap nullsOff fmChildren)
                    children hchild
                  rcases List.mem_append.mp ho with ho' | ho'
                  · rcases List.mem_cons.mp ho' with rfl | ho''
                    · exact hsub o (by
                        rw [appendAllNestedStreams]
                        exact List.mem_cons_self _ _)
                    · exact hsub o (by
                        rw [appendAllNestedStreams]
                        exact List.mem_cons_of_mem _
                          (featureOffsets_subset fmChildren feats o ho''))
                  · exact ih tail hrec o ho'
          | scalar v => simp [hty] at h
          | row a b => simp [hty] at h
          | array a b => simp [hty] at h
          | arrayWithOffsets a b c => simp [hty] at h
          | map a b c => simp [hty] at h

/-! ## C7: the planner's stream order -/

/-- **C7.** For a row-rooted schema whose stripe streams carry pairwise
distinct offsets covering exactly the schema's streams, and a feature-order
config the planner accepts (`flatMapFeatureOffsets` returns the configured
flat-map offsets `fm`: per configured column in config order, the column's
nulls stream and then, per requested feature present in the schema, the
feature's in-map stream followed by the feature's value subtree in schema
preorder), `getLayout` succeeds and lays the streams out in offset order
`dedupNatFirst (root nulls :: fm ++ schema preorder)`: root nulls stream
first, then the configured flat-map streams, then all remaining streams in
schema preorder, each stream exactly once. -/
theorem getLayout_order (rootNulls : Nat) (children : List (String × TypeB))
    (config : List (Nat × List String)) (streams : List Stream) (fm : List Nat)
    (hnodup : (streams.map Stream.offset).Nodup)
    (hperm : (streams.map Stream.offset).Perm
      (appendAllNestedStreams (.row rootNulls children)))
    (hfm : flatMapFeatureOffsets children config = .ok fm) :
    ∃ layout, getLayout (.row rootNulls children) config streams = .ok layout ∧
      layout.map Stream.offset =
        dedupNatFirst (rootNulls ::
          (fm ++ appendAllNestedStreams (.row rootNulls children))) := by
  have hpool : dedupByOffset streams = streams :=
    dedupByOffsetGo_id streams [] hnodup (by simp)
  have hsubset : ∀ o ∈ rootNulls ::
      (fm ++ appendAllNestedStreams (.row rootNulls children)),
      o ∈ streams.map Stream.offset := by
    intro o ho
    rw [hperm.mem_iff]
    rcases List.mem_cons.mp ho with rfl | ho'
    · rw [appendAllNestedStreams]
      exact List.mem_cons_self _ _
    · rcases List.mem_append.mp ho' with ho'' | ho''
      · rw [appendAllNestedStreams]
        exact List.mem_cons_of_mem _
          (flatMapFeatureOffsets_subset children config fm hfm o ho'')
      · exact ho''
  have hmap := extractAll_map_offset
    (rootNulls :: (fm ++ appendAllNestedStreams (.row rootNulls children)))
    streams [] hnodup (by simp)
  have hfilter : (dedupNatFirstGo []
      (rootNulls :: (fm ++ appendAllNestedStreams (.row rootNulls children)))).filter
        (fun o => decide (o ∈ streams.map Stream.offset)) =
      dedupNatFirst (rootNulls ::
        (fm ++ appendAllNestedStreams (.row rootNulls children))) := by
    refine List.filter_eq_self.mpr ?_
    intro o ho
    have := hsubset o ((dedupNatFirstGo_mem _ [] o).mp ho).1
    simpa using this
  rw [hfilter] at hmap
  have hpermdedup : (dedupNatFirst (rootNulls ::
      (fm ++ appendAllNestedStreams (.row rootNulls children)))).Perm
      (streams.map Stream.offset) := by
    refine (List.perm_ext_iff_of_nodup (dedupNatFirstGo_nodup _ []) hnodup).mpr ?_
    intro o
    rw [dedupNatFirstGo_mem]
    constructor
    · rintro ⟨h1, _⟩
      exact hsubset o h1
    · intro h1
      refine ⟨?_, by simp⟩
      refine List.mem_cons_of_mem _ (List.mem_append_right _ ?_)
      exact hperm.mem_iff.mp h1
  have hlen : (extractAll (rootNulls ::
      (fm ++ appendAllNestedStreams (.row rootNulls children))) streams).1.length =
      streams.length := by
    have h1 : (extractAll (rootNulls ::
        (fm ++ appendAllNestedStreams (.row rootNulls children))) streams).1.length =
        (dedupNatFirst (rootNulls ::
          (fm ++ appendAllNestedStreams (.row rootNulls children)))).length := by
      rw [← hmap, List.length_map]
    rw [h1, hpermdedup.length_eq, List.length_map]
  refine ⟨(extractAll (rootNulls ::
    (fm ++ appendAllNestedStreams (.row rootNulls children))) streams).1, ?_, hmap⟩
  rw [getLayout, hfm]
  simp only [hpool]
  rw [if_pos hlen]

/-- Witness for C7 on the same concrete schema as the C6 witness. -/
theorem getLayout_order_witness :
    ([⟨0, 0⟩, ⟨1, 10⟩, ⟨2, 20⟩, ⟨3, 30⟩, ⟨4, 40⟩, ⟨5, 50⟩,
        (⟨6, 60⟩ : Stream)].map Stream.offset).Nodup ∧
    ([⟨0, 0⟩, ⟨1, 10⟩, ⟨2, 20⟩, ⟨3, 30⟩, ⟨4, 40⟩, ⟨5, 50⟩,
        (⟨6, 60⟩ : Stream)].map Stream.offset).Perm
      (appendAllNestedStreams (.row 0 [("a", TypeB.scalar 1),
        ("m", TypeB.flatMap 2 [("k1", 3, TypeB.scalar 4), ("k2", 5, TypeB.scalar 6)])])) ∧
    flatMapFeatureOffsets [("a", TypeB.scalar 1),
        ("m", TypeB.flatMap 2 [("k1", 3, TypeB.scalar 4), ("k2", 5, TypeB.scalar 6)])]
      [(1, ["k2"])] = .ok [2, 5, 6] ∧
    (∃ layout,
      getLayout (.row 0 [("a", TypeB.scalar 1),
          ("m", TypeB.flatMap 2 [("k1", 3, TypeB.scalar 4), ("k2", 5, TypeB.scalar 6)])])
        [(1, ["k2"])]
        [⟨0, 0⟩, ⟨1, 10⟩, ⟨2, 20⟩, ⟨3, 30⟩, ⟨4, 40⟩, ⟨5, 50⟩, ⟨6, 60⟩] = .ok layout ∧
      layout.map Stream.offset =
        dedupNatFirst (0 :: ([2, 5, 6] ++ appendAllNestedStreams
          (.row 0 [("a", TypeB.scalar 1),
            ("m", TypeB.flatMap 2 [("k1", 3, TypeB.scalar 4),
              ("k2", 5, TypeB.scalar 6)])])))) :=
  ⟨by decide, by decide, rfl,
    getLayout_order 0
      [("a", TypeB.scalar 1),
        ("m", TypeB.flatMap 2 [("k1", 3, TypeB.scalar 4), ("k2", 5, TypeB.scalar 6)])]
      [(1, ["k2"])]
      [⟨0, 0⟩, ⟨1, 10⟩, ⟨2, 20⟩, ⟨3, 30⟩, ⟨4, 40⟩, ⟨5, 50⟩, ⟨6, 60⟩]
      [2, 5, 6] (by decide) (by decide) rfl⟩

end Nimble
